import Mathlib

/-!
Shallow embedding of the gym-wordle environment
(`gym_wordle/envs/wordle_env.py`) and proofs about its specification.

Letters are modelled as `Int` (Python ints produced by `ord c - 97`);
status codes are `Int` (`-1` = UNKNOWN, `0` = ABSENT, `1` = PRESENT_WRONG_POSITION,
`2` = CORRECT_POSITION).  The board is a list of `GAME_LENGTH` rows, each a list
of `WORD_LENGTH` status codes; the alphabet tracker a list of 26 status codes.
Rewards (Python floats `1.0`, `0.0`, `-1.0`, all exactly representable) are
modelled as `Int`.  The word bank `WORDS`, loaded from an external data file
when the module loads, is a parameter `words` of the operations that consult
it, and the
hidden word chosen by `random.choice(WORDS)` in `reset` is a parameter `hidden`.
-/

set_option autoImplicit false

/-- Source: `GAME_LENGTH = 6`. -/
def GAME_LENGTH : Nat := 6

/-- Source: `WORD_LENGTH = 5`. -/
def WORD_LENGTH : Nat := 5

/-- Source: `encodeToStr(encoding)`: builds a string by appending
`chr(ord('a') + enc)` for each component. -/
def encodeToStr (encoding : List Int) : String :=
  String.mk (encoding.map (fun enc => Char.ofNat (97 + enc).toNat))

/-- Python whitespace characters recognised by `str.strip()`. -/
def pySpace (c : Char) : Bool :=
  c = ' ' || c = '\t' || c = '\n' || c = '\r' || c = '\x0b' || c = '\x0c'

/-- Python `line.strip()`: drop leading and trailing whitespace. -/
def pyStrip (s : String) : String :=
  String.mk (((s.data.dropWhile pySpace).reverse.dropWhile pySpace).reverse)

/-- Source: `strToEncode(lines)`: for each line, `assert len(line.strip()) == 5`
(the assertion failure is modelled as `none`) and append
`tuple(ord(char) - 97 for char in line.strip())`. -/
def strToEncode (lines : List String) : Option (List (List Int)) :=
  lines.mapM (fun line =>
    if (pyStrip line).length = WORD_LENGTH then
      some ((pyStrip line).data.map (fun c => (c.toNat : Int) - 97))
    else none)

/-- Per-position feedback computed in the loop body of `WordleEnv.step`:
`2` if `hidden_word[idx] == char`, else `1` if `char in hidden_word`, else `0`. -/
def statusOf (hidden : List Int) (idx : Nat) (c : Int) : Int :=
  if hidden.get? idx = some c then 2
  else if c ∈ hidden then 1
  else 0

/-- The full status vector a guess receives against a hidden word: the feedback
of `WordleEnv.step`'s loop `for idx, char in enumerate(action)`, one status per
position of the guess. -/
def score (hidden guess : List Int) : List Int :=
  guess.enum.map (fun p => statusOf hidden p.1 p.2)

/-- The loop body of `WordleEnv.step`: for each `(idx, char)` of
`enumerate(action)`, write the status into the current board row
(`self.board[board_row_idx, idx] = encoding`) and overwrite the alphabet
tracker (`self.alphabet[char] = encoding`). -/
def applyGuess (hidden : List Int) (ra : List Int × List Int)
    (pairs : List (Nat × Int)) : List Int × List Int :=
  pairs.foldl (fun ra p =>
    let enc := statusOf hidden p.1 p.2
    (ra.1.set p.1 enc, ra.2.set p.2.toNat enc)) ra

/-- The alphabet-tracker component of the loop of `WordleEnv.step` in
isolation: the successive writes `self.alphabet[char] = encoding`. -/
def alphaFold (hidden : List Int) (alpha : List Int)
    (pairs : List (Nat × Int)) : List Int :=
  pairs.foldl (fun a p => a.set p.2.toNat (statusOf hidden p.1 p.2)) alpha

/-- The mutable fields of `WordleEnv`. -/
structure WordleState where
  hidden_word : List Int
  guesses_left : Int
  board : List (List Int)
  alphabet : List Int
  guesses : List (List Int)
deriving DecidableEq

/-- Model of `self.action_space.contains(action)` for
`MultiDiscrete([26] * WORD_LENGTH)`: the action has length `WORD_LENGTH` and
every component lies in `[0, 25]`. -/
def actionOk (action : List Int) : Prop :=
  action.length = WORD_LENGTH ∧ ∀ c ∈ action, 0 ≤ c ∧ c < 26

instance : DecidablePred actionOk := fun action =>
  decidable_of_iff (action.length = WORD_LENGTH ∧ ∀ c ∈ action, 0 ≤ c ∧ c < 26)
    Iff.rfl

/-- Result of one `step` call: the `assert self.action_space.contains(action)`
failure, the `InvalidWordException` (carrying its message string), or a normal
return with reward and `done` flag. -/
inductive StepOutcome where
  | invalidActionShape : StepOutcome
  | invalidWord : String → StepOutcome
  | ok : Int → Bool → StepOutcome
deriving DecidableEq

/-- Source: `WordleEnv.step(action)`.  Returns the state after the call
(unchanged when the call raises, since both raises precede every mutation)
together with the outcome.  `words` is the module-level `WORDS` bank. -/
def step (words : List (List Int)) (s : WordleState) (action : List Int) :
    WordleState × StepOutcome :=
  if ¬ actionOk action then (s, .invalidActionShape)
  else if action ∉ words then
    (s, .invalidWord (encodeToStr action ++ " is not a valid word."))
  else
    let rowIdx := ((GAME_LENGTH : Int) - s.guesses_left).toNat
    let ra := applyGuess s.hidden_word (s.board.getD rowIdx [], s.alphabet)
      action.enum
    let gl := s.guesses_left - 1
    let s' : WordleState :=
      { hidden_word := s.hidden_word
        guesses_left := gl
        board := s.board.set rowIdx ra.1
        alphabet := ra.2
        guesses := s.guesses ++ [action] }
    if ra.1.all (fun x => x == 2) then (s', .ok 1 true)
    else if gl > 0 then (s', .ok 0 false)
    else (s', .ok (-1) true)

/-- Source: `WordleEnv.reset`.  Every field of the environment is overwritten,
so the prior state `_s` is ignored; `hidden` stands for `random.choice(WORDS)`. -/
def reset (_s : WordleState) (hidden : List Int) : WordleState :=
  { hidden_word := hidden
    guesses_left := (GAME_LENGTH : Int)
    board := List.replicate GAME_LENGTH (List.replicate WORD_LENGTH (-1))
    alphabet := List.replicate 26 (-1)
    guesses := [] }

/-- Source: `WordleEnv._get_obs`: the observation `{'board': ..., 'alphabet': ...}`. -/
def getObs (s : WordleState) : List (List Int) × List Int :=
  (s.board, s.alphabet)

/-- A sequence of `step` calls threading the state (the driver loop's use). -/
def playSteps (words : List (List Int)) (s : WordleState)
    (acts : List (List Int)) : WordleState :=
  acts.foldl (fun st a => (step words st a).1) s

/-- Index of the rightmost occurrence of `c` in `l` (0 when `c` is absent). -/
def lastIdxOf (l : List Int) (c : Int) : Nat :=
  (((l.enum.filter (fun p => p.2 = c)).getLast?).map Prod.fst).getD 0

/-- A board row holding at least one mark other than UNKNOWN. -/
def RowFilled (r : List Int) : Bool :=
  r.any (fun x => x != -1)

/-- Shape of the board after `j` accepted guesses: `j` fully-scored rows
followed by untouched all-UNKNOWN rows. -/
def BoardShape (j : Nat) (board : List (List Int)) : Prop :=
  ∃ pre, board = pre ++
      List.replicate (GAME_LENGTH - j) (List.replicate WORD_LENGTH (-1)) ∧
    pre.length = j ∧ ∀ r ∈ pre, r.length = WORD_LENGTH ∧ ∀ x ∈ r, 0 ≤ x ∧ x ≤ 2

/-- Invariant of a session that has made `j` accepted guesses since `reset`. -/
def SessionInv (s : WordleState) (j : Nat) : Prop :=
  j ≤ GAME_LENGTH ∧ s.guesses_left = (GAME_LENGTH : Int) - j ∧
  BoardShape j s.board ∧ s.alphabet.length = 26 ∧ s.guesses.length = j

/-! ### Basic lemmas about the feedback computation -/

theorem statusOf_bounds (hidden : List Int) (idx : Nat) (c : Int) :
    0 ≤ statusOf hidden idx c ∧ statusOf hidden idx c ≤ 2 := by
  unfold statusOf
  split
  · exact ⟨by norm_num, le_refl 2⟩
  · split
    · exact ⟨by norm_num, by norm_num⟩
    · exact ⟨le_refl 0, by norm_num⟩

theorem score_length (hidden guess : List Int) :
    (score hidden guess).length = guess.length := by
  simp [score, List.enum_length]

theorem score_mem_bounds (hidden guess : List Int) :
    ∀ x ∈ score hidden guess, 0 ≤ x ∧ x ≤ 2 := by
  intro x hx
  rcases List.mem_map.mp hx with ⟨p, _, hpx⟩
  exact hpx ▸ statusOf_bounds hidden p.1 p.2

theorem applyGuess_snd (hidden : List Int) :
    ∀ (pairs : List (Nat × Int)) (row alpha : List Int),
      (applyGuess hidden (row, alpha) pairs).2 = alphaFold hidden alpha pairs := by
  intro pairs
  induction pairs with
  | nil => intro row alpha; rfl
  | cons p rest ih =>
    intro row alpha
    simpa [applyGuess, alphaFold] using ih _ _

theorem take_succ_set (row : List Int) (n : Nat) (v : Int) (h : n < row.length) :
    (row.set n v).take (n + 1) = row.take n ++ [v] := by
  rw [List.set_eq_take_cons_drop v h]
  have hlen : (List.take n row).length = n := by
    rw [List.length_take]; omega
  calc (List.take n row ++ v :: List.drop (n + 1) row).take (n + 1)
      = (List.take n row ++ v :: List.drop (n + 1) row).take
          ((List.take n row).length + 1) := by rw [hlen]
    _ = List.take n row ++ (v :: List.drop (n + 1) row).take 1 :=
        List.take_append 1
    _ = List.take n row ++ [v] := by simp

theorem applyGuess_fst (hidden : List Int) (g : List Int) :
    ∀ (n : Nat) (row alpha : List Int), row.length = n + g.length →
      (applyGuess hidden (row, alpha) (List.enumFrom n g)).1 =
        row.take n ++ (List.enumFrom n g).map (fun p => statusOf hidden p.1 p.2) := by
  induction g with
  | nil =>
    intro n row alpha hlen
    have hr : row.length = n := by simpa using hlen
    subst hr
    simp [applyGuess, List.take_length]
  | cons c g ih =>
    intro n row alpha hlen
    have hn : n < row.length := by simp at hlen; omega
    have hlen' : (row.set n (statusOf hidden n c)).length = (n + 1) + g.length := by
      simp [List.length_set]; simp at hlen; omega
    calc (applyGuess hidden (row, alpha) (List.enumFrom n (c :: g))).1
        = (applyGuess hidden
            (row.set n (statusOf hidden n c),
             alpha.set c.toNat (statusOf hidden n c))
            (List.enumFrom (n + 1) g)).1 := by
          simp [applyGuess, List.enumFrom_cons]
      _ = (row.set n (statusOf hidden n c)).take (n + 1) ++
            (List.enumFrom (n + 1) g).map (fun p => statusOf hidden p.1 p.2) :=
          ih (n + 1) _ _ hlen'
      _ = row.take n ++
            (List.enumFrom n (c :: g)).map (fun p => statusOf hidden p.1 p.2) := by
          rw [take_succ_set row n _ hn, List.enumFrom_cons]
          simp

theorem applyGuess_fst_zero (hidden row alpha a : List Int)
    (h : row.length = a.length) :
    (applyGuess hidden (row, alpha) a.enum).1 = score hidden a := by
  have := applyGuess_fst hidden a 0 row alpha (by simpa using h)
  simpa [score] using this

theorem alphaFold_length (hidden : List Int) :
    ∀ (pairs : List (Nat × Int)) (alpha : List Int),
      (alphaFold hidden alpha pairs).length = alpha.length := by
  intro pairs
  induction pairs with
  | nil => intro alpha; rfl
  | cons p rest ih =>
    intro alpha
    simpa [alphaFold, List.length_set] using
      ih (alpha.set p.2.toNat (statusOf hidden p.1 p.2))

theorem getLastQ_mem {α : Type} (l : List α) (a : α) (h : l.getLast? = some a) :
    a ∈ l := by
  induction l using List.reverseRecOn with
  | nil => simp at h
  | append_singleton l b _ =>
    rw [List.getLast?_concat] at h
    simp at h
    simp [h]

/-! ### Characterisation of the alphabet-tracker writes -/

theorem alphaFold_get? (hidden : List Int) (pairs : List (Nat × Int))
    (alpha : List Int) (k : Nat) :
    (alphaFold hidden alpha pairs).get? k =
      match (pairs.filter (fun p => p.2.toNat = k)).getLast? with
      | none => alpha.get? k
      | some p =>
          if k < alpha.length then some (statusOf hidden p.1 p.2) else none := by
  induction pairs using List.reverseRecOn with
  | nil => rfl
  | append_singleton rest p ih =>
    have hstep : alphaFold hidden alpha (rest ++ [p]) =
        (alphaFold hidden alpha rest).set p.2.toNat (statusOf hidden p.1 p.2) := by
      simp [alphaFold, List.foldl_append]
    rw [hstep, List.filter_append]
    by_cases hk : p.2.toNat = k
    · have hfp : List.filter (fun q => decide (q.2.toNat = k)) [p] = [p] := by
        simp [hk]
      rw [hfp, List.getLast?_concat]
      have hlen := alphaFold_length hidden rest alpha
      subst hk
      by_cases hlt : p.2.toNat < alpha.length
      · rw [List.get?_set_eq_of_lt _ (by rw [hlen]; exact hlt)]
        simp [hlt]
      · have : (((alphaFold hidden alpha rest).set p.2.toNat
            (statusOf hidden p.1 p.2)).get? p.2.toNat) = none := by
          rw [List.get?_eq_none, List.length_set, hlen]; omega
        rw [this]
        simp [hlt]
    · have hfp : List.filter (fun q => decide (q.2.toNat = k)) [p] = [] := by
        simp [hk]
      rw [hfp, List.append_nil, List.get?_set_ne _ _ hk]
      exact ih

/-! ### Characterisation of one `step` call -/

theorem step_not_shape (words : List (List Int)) (s : WordleState)
    (a : List Int) (h : ¬ actionOk a) :
    step words s a = (s, StepOutcome.invalidActionShape) := by
  simp [step, h]

theorem step_not_word (words : List (List Int)) (s : WordleState)
    (a : List Int) (h1 : actionOk a) (h2 : a ∉ words) :
    step words s a =
      (s, StepOutcome.invalidWord (encodeToStr a ++ " is not a valid word.")) := by
  simp [step, h1, h2]

theorem step_accepted (words : List (List Int)) (s : WordleState) (a : List Int)
    (hok : actionOk a) (hmem : a ∈ words)
    (hrow : (s.board.getD ((GAME_LENGTH : Int) - s.guesses_left).toNat []).length
      = WORD_LENGTH) :
    step words s a =
      ({ hidden_word := s.hidden_word
         guesses_left := s.guesses_left - 1
         board := s.board.set ((GAME_LENGTH : Int) - s.guesses_left).toNat
           (score s.hidden_word a)
         alphabet := alphaFold s.hidden_word s.alphabet a.enum
         guesses := s.guesses ++ [a] },
       if (score s.hidden_word a).all (fun x => x == 2) then StepOutcome.ok 1 true
       else if s.guesses_left - 1 > 0 then StepOutcome.ok 0 false
       else StepOutcome.ok (-1) true) := by
  have hr : (s.board.getD ((GAME_LENGTH : Int) - s.guesses_left).toNat []).length
      = a.length := by rw [hrow, hok.1]
  have hfst := applyGuess_fst_zero s.hidden_word
    (s.board.getD ((GAME_LENGTH : Int) - s.guesses_left).toNat []) s.alphabet a hr
  have hsnd := applyGuess_snd s.hidden_word a.enum
    (s.board.getD ((GAME_LENGTH : Int) - s.guesses_left).toNat []) s.alphabet
  unfold step
  rw [if_neg (not_not_intro hok), if_neg (not_not_intro hmem)]
  simp only [hfst, hsnd]
  split
  · rfl
  · split
    · rfl
    · rfl

/-! ### The session invariant -/

theorem reset_inv (s : WordleState) (hidden : List Int) :
    SessionInv (reset s hidden) 0 := by
  refine ⟨by norm_num, by simp [reset], ?_, by simp [reset], by simp [reset]⟩
  exact ⟨[], by simp [reset], rfl, by simp⟩

theorem step_inv (words : List (List Int)) (s : WordleState) (a : List Int)
    (j : Nat) (hInv : SessionInv s j) (hj : j < GAME_LENGTH)
    (hok : actionOk a) (hmem : a ∈ words) :
    ((GAME_LENGTH : Int) - s.guesses_left).toNat = j ∧
    (step words s a).1.board = s.board.set j (score s.hidden_word a) ∧
    (step words s a).1.guesses_left = s.guesses_left - 1 ∧
    (step words s a).1.guesses = s.guesses ++ [a] ∧
    (step words s a).1.hidden_word = s.hidden_word ∧
    SessionInv (step words s a).1 (j + 1) := by
  obtain ⟨hj6, hgl, ⟨pre, hb, hpl, hpre⟩, hal, hgs⟩ := hInv
  subst hpl
  have hidx : ((GAME_LENGTH : Int) - s.guesses_left).toNat = pre.length := by
    rw [hgl]; omega
  have hrowv : s.board.getD pre.length [] = List.replicate WORD_LENGTH (-1) := by
    rw [List.getD_eq_get?, hb,
      List.get?_append_right (le_refl pre.length),
      show GAME_LENGTH - pre.length = (GAME_LENGTH - pre.length - 1) + 1 by omega,
      List.replicate_succ]
    simp
  have hrow : (s.board.getD ((GAME_LENGTH : Int) - s.guesses_left).toNat []).length
      = WORD_LENGTH := by
    rw [hidx, hrowv, List.length_replicate]
  have hstep := step_accepted words s a hok hmem hrow
  rw [hstep]
  have hboard : s.board.set pre.length (score s.hidden_word a) =
      (pre ++ [score s.hidden_word a]) ++
        List.replicate (GAME_LENGTH - (pre.length + 1))
          (List.replicate WORD_LENGTH (-1)) := by
    rw [hb, List.set_append_right pre.length (score s.hidden_word a)
      (le_refl pre.length), Nat.sub_self,
      show GAME_LENGTH - pre.length = (GAME_LENGTH - (pre.length + 1)) + 1 by omega,
      List.replicate_succ]
    simp
  refine ⟨hidx, by simp [hidx], rfl, rfl, rfl, ?_⟩
  refine ⟨by omega, by simp [hgl]; ring, ?_, ?_, by simp [hgs]⟩
  · refine ⟨pre ++ [score s.hidden_word a], ?_, by simp, ?_⟩
    · simp only [hidx, hboard]
    · intro r hr
      rcases List.mem_append.mp hr with hr | hr
      · exact hpre r hr
      · have : r = score s.hidden_word a := by simpa using hr
        subst this
        exact ⟨by rw [score_length, hok.1], score_mem_bounds s.hidden_word a⟩
  · simp [alphaFold_length, hal]

theorem playSteps_inv (words : List (List Int)) :
    ∀ (acts : List (List Int)) (s : WordleState) (j : Nat),
      SessionInv s j → j + acts.length ≤ GAME_LENGTH →
      (∀ a ∈ acts, actionOk a ∧ a ∈ words) →
      SessionInv (playSteps words s acts) (j + acts.length) ∧
      (playSteps words s acts).hidden_word = s.hidden_word := by
  intro acts
  induction acts with
  | nil => intro s j hInv _ _; exact ⟨by simpa using hInv, rfl⟩
  | cons a rest ih =>
    intro s j hInv hlen hacc
    have hj : j < GAME_LENGTH := by simp at hlen; omega
    have ha := hacc a (List.mem_cons_self a rest)
    have hstep := step_inv words s a j hInv hj ha.1 ha.2
    have hrec := ih (step words s a).1 (j + 1) hstep.2.2.2.2.2
      (by simp at hlen ⊢; omega)
      (fun b hb => hacc b (List.mem_cons_of_mem a hb))
    have heq : playSteps words s (a :: rest) =
        playSteps words (step words s a).1 rest := rfl
    rw [heq]
    constructor
    · have hc : j + (a :: rest).length = j + 1 + rest.length := by
        simp [List.length_cons]; omega
      rw [hc]
      exact hrec.1
    · rw [hrec.2, hstep.2.2.2.2.1]

/-! ### Rows, counting, and self-scoring -/

theorem rowFilled_of_scored (r : List Int) (h5 : r.length = WORD_LENGTH)
    (hb : ∀ x ∈ r, 0 ≤ x ∧ x ≤ 2) : RowFilled r = true := by
  obtain ⟨x, hx⟩ := List.exists_mem_of_length_pos (l := r) (by rw [h5]; decide)
  have := hb x hx
  rw [RowFilled, List.any_eq_true]
  refine ⟨x, hx, ?_⟩
  simp only [bne_iff_ne, ne_eq]
  omega

theorem rowFilled_unknown :
    RowFilled (List.replicate WORD_LENGTH (-1)) = false := by decide

theorem boardShape_countP (j : Nat) (board : List (List Int))
    (h : BoardShape j board) : board.countP RowFilled = j := by
  obtain ⟨pre, hb, hpl, hpre⟩ := h
  rw [hb, List.countP_append, List.countP_replicate, rowFilled_unknown]
  have : pre.countP RowFilled = pre.length := by
    rw [List.countP_eq_length]
    intro r hr
    exact rowFilled_of_scored r (hpre r hr).1 (hpre r hr).2
  simp [this, hpl]

theorem score_get? (hidden guess : List Int) (i : Nat) (c : Int)
    (h : guess.get? i = some c) :
    (score hidden guess).get? i = some (statusOf hidden i c) := by
  rw [score, List.get?_map, List.get?_enum, h]
  rfl

theorem score_self (hidden : List Int) :
    score hidden hidden = List.replicate hidden.length 2 := by
  rw [List.eq_replicate]
  refine ⟨score_length hidden hidden, ?_⟩
  intro b hb
  rcases List.mem_map.mp hb with ⟨p, hp, hpb⟩
  have hget := List.mem_enum_iff_get?.mp hp
  rw [← hpb, statusOf, if_pos hget]

theorem score_self_all2 (hidden : List Int) :
    (score hidden hidden).all (fun x => x == 2) = true := by
  rw [score_self, List.all_eq_true]
  intro x hx
  have := List.eq_of_mem_replicate hx
  simp [this]

/-! ### Character-level facts for the codec -/

theorem char_roundtrip (c : Int) (h0 : 0 ≤ c) (h25 : c ≤ 25) :
    pySpace (Char.ofNat (97 + c).toNat) = false ∧
    ((Char.ofNat (97 + c).toNat).toNat : Int) - 97 = c := by
  interval_cases c <;> exact ⟨rfl, rfl⟩

theorem char_lower_notSpace (c : Char) (h1 : 'a' ≤ c) : pySpace c = false := by
  have h97 : 97 ≤ c.toNat := by
    simpa [Char.le_def] using h1
  rw [pySpace]
  simp only [Bool.or_eq_false_iff, decide_eq_false_iff_not]
  refine ⟨⟨⟨⟨⟨?_, ?_⟩, ?_⟩, ?_⟩, ?_⟩, ?_⟩ <;>
    (intro h; subst h; simp at h97)

theorem char_lower_decode (c : Char) (h1 : 'a' ≤ c) :
    Char.ofNat (97 + ((c.toNat : Int) - 97)).toNat = c := by
  have h97 : 97 ≤ c.toNat := by
    simpa [Char.le_def] using h1
  have : (97 + ((c.toNat : Int) - 97)) = (c.toNat : Int) := by ring
  rw [this, Int.toNat_natCast, Char.ofNat_toNat]

theorem dropWhile_all_false {α : Type} (p : α → Bool) (l : List α)
    (h : ∀ x ∈ l, p x = false) : List.dropWhile p l = l := by
  cases l with
  | nil => rfl
  | cons a t =>
    rw [List.dropWhile_cons, h a (List.mem_cons_self a t)]
    simp

theorem pyStrip_id (s : String) (h : ∀ c ∈ s.data, pySpace c = false) :
    pyStrip s = s := by
  rw [pyStrip, dropWhile_all_false pySpace s.data h]
  rw [dropWhile_all_false pySpace s.data.reverse
    (fun c hc => h c (List.mem_reverse.mp hc))]
  simp

/-! ### Claim theorems -/

/-- Claim C5: after every call to `reset`, regardless of prior state, every
board entry is UNKNOWN (`-1`), every alphabet-knowledge entry is UNKNOWN,
`guesses_left` equals `GAME_LENGTH`, the guess history is empty, and the
returned observation is the board and alphabet in that initial state. -/
theorem claim_C5_reset_initial (s : WordleState) (hidden : List Int) :
    (∀ r ∈ (reset s hidden).board, ∀ x ∈ r, x = -1) ∧
    (reset s hidden).board.length = GAME_LENGTH ∧
    (∀ r ∈ (reset s hidden).board, r.length = WORD_LENGTH) ∧
    (∀ x ∈ (reset s hidden).alphabet, x = -1) ∧
    (reset s hidden).alphabet.length = 26 ∧
    (reset s hidden).guesses_left = (GAME_LENGTH : Int) ∧
    (reset s hidden).guesses = [] ∧
    getObs (reset s hidden) = ((reset s hidden).board, (reset s hidden).alphabet) := by
  refine ⟨?_, by simp [reset], ?_, ?_, by simp [reset], rfl, rfl, rfl⟩
  · intro r hr x hx
    have hrv : r = List.replicate WORD_LENGTH (-1) := List.eq_of_mem_replicate hr
    subst hrv
    exact List.eq_of_mem_replicate hx
  · intro r hr
    have hrv : r = List.replicate WORD_LENGTH (-1) := List.eq_of_mem_replicate hr
    subst hrv
    exact List.length_replicate WORD_LENGTH (-1)
  · intro x hx
    exact List.eq_of_mem_replicate hx

/-- Claim C10: `step` never writes `hidden_word` — whether it raises or returns
normally, the target word selected at `reset` stays fixed until the next
`reset` replaces it. -/
theorem claim_C10_hidden_word_frame (words : List (List Int)) (s : WordleState)
    (a hidden : List Int) :
    (step words s a).1.hidden_word = s.hidden_word ∧
    (reset s hidden).hidden_word = hidden := by
  refine ⟨?_, rfl⟩
  unfold step
  split
  · rfl
  · split
    · rfl
    · dsimp only
      split
      · rfl
      · split
        · rfl
        · rfl

/-- Claim C9: an action that is not a well-formed Word (wrong length, or some
component outside `[0, 25]`) makes `step` fail with the action-shape error,
before any membership test (the conclusion holds whether or not the action is
in the bank) and before any state mutation (the state is returned unchanged). -/
theorem claim_C9_shape_error (words : List (List Int)) (s : WordleState)
    (a : List Int)
    (h : a.length ≠ WORD_LENGTH ∨ ∃ c ∈ a, c < 0 ∨ 25 < c) :
    step words s a = (s, StepOutcome.invalidActionShape) := by
  apply step_not_shape
  rintro ⟨hlen, hc⟩
  rcases h with h | ⟨c, hc', h⟩
  · exact h hlen
  · rcases hc c hc' with ⟨h1, h2⟩
    omega

/-- Witness for C9 at the out-of-range action `[26, 0, 0, 0, 0]` (which is even
a member of the supplied bank, showing the shape check comes first). -/
theorem claim_C9_shape_error_witness :
    ((26 : Int) ∈ ([26, 0, 0, 0, 0] : List Int) ∧ (25 : Int) < 26) ∧
    step [[26, 0, 0, 0, 0]] (reset ⟨[], 0, [], [], []⟩ [0, 0, 0, 0, 0])
      [26, 0, 0, 0, 0] =
      (reset ⟨[], 0, [], [], []⟩ [0, 0, 0, 0, 0],
       StepOutcome.invalidActionShape) :=
  ⟨by decide,
   claim_C9_shape_error [[26, 0, 0, 0, 0]]
     (reset ⟨[], 0, [], [], []⟩ [0, 0, 0, 0, 0]) [26, 0, 0, 0, 0]
     (Or.inr ⟨26, by decide, by decide⟩)⟩

/-- Claim C2: a well-formed action whose encoding is not in the word bank makes
`step` raise `InvalidWordException` carrying the decoded string, and no state
mutation occurs: `guesses_left`, `board`, `alphabet` and `guesses` are all
unchanged, so the turn is not consumed. -/
theorem claim_C2_invalid_word (words : List (List Int)) (s : WordleState)
    (a : List Int) (hok : actionOk a) (hmem : a ∉ words) :
    step words s a =
      (s, StepOutcome.invalidWord (encodeToStr a ++ " is not a valid word.")) ∧
    (step words s a).1.guesses_left = s.guesses_left ∧
    (step words s a).1.board = s.board ∧
    (step words s a).1.alphabet = s.alphabet ∧
    (step words s a).1.guesses = s.guesses := by
  have h := step_not_word words s a hok hmem
  exact ⟨h, by rw [h], by rw [h], by rw [h], by rw [h]⟩

/-- Witness for C2: guessing "abase" when the bank holds only "aback" raises
the invalid-word error with the decoded string and leaves the state unchanged. -/
theorem claim_C2_invalid_word_witness :
    (actionOk [0, 1, 0, 18, 4] ∧ [0, 1, 0, 18, 4] ∉ [[(0 : Int), 1, 0, 2, 10]]) ∧
    (step [[(0 : Int), 1, 0, 2, 10]] (reset ⟨[], 0, [], [], []⟩ [0, 1, 0, 2, 10])
        [0, 1, 0, 18, 4] =
      (reset ⟨[], 0, [], [], []⟩ [0, 1, 0, 2, 10],
       StepOutcome.invalidWord "abase is not a valid word.") ∧
     (step [[(0 : Int), 1, 0, 2, 10]] (reset ⟨[], 0, [], [], []⟩ [0, 1, 0, 2, 10])
        [0, 1, 0, 18, 4]).1.guesses_left =
       (reset ⟨[], 0, [], [], []⟩ [0, 1, 0, 2, 10]).guesses_left ∧
     (step [[(0 : Int), 1, 0, 2, 10]] (reset ⟨[], 0, [], [], []⟩ [0, 1, 0, 2, 10])
        [0, 1, 0, 18, 4]).1.board =
       (reset ⟨[], 0, [], [], []⟩ [0, 1, 0, 2, 10]).board ∧
     (step [[(0 : Int), 1, 0, 2, 10]] (reset ⟨[], 0, [], [], []⟩ [0, 1, 0, 2, 10])
        [0, 1, 0, 18, 4]).1.alphabet =
       (reset ⟨[], 0, [], [], []⟩ [0, 1, 0, 2, 10]).alphabet ∧
     (step [[(0 : Int), 1, 0, 2, 10]] (reset ⟨[], 0, [], [], []⟩ [0, 1, 0, 2, 10])
        [0, 1, 0, 18, 4]).1.guesses =
       (reset ⟨[], 0, [], [], []⟩ [0, 1, 0, 2, 10]).guesses) := by
  constructor
  · constructor
    · decide
    · decide
  · have hmsg : encodeToStr [0, 1, 0, 18, 4] = "abase" := rfl
    have := claim_C2_invalid_word [[(0 : Int), 1, 0, 2, 10]]
      (reset ⟨[], 0, [], [], []⟩ [0, 1, 0, 2, 10]) [0, 1, 0, 18, 4]
      (by decide) (by decide)
    rw [hmsg] at this
    exact this

/-- Claim C1: for every hidden word and guess of length `WORD_LENGTH` with
components in `[0, 25]`, the per-position feedback computed during `step` is
`2` (CORRECT_POSITION) at `i` exactly when `guess[i] == hidden[i]`; otherwise
`1` (PRESENT_WRONG_POSITION) exactly when `guess[i]` occurs anywhere in the
hidden word (whole-word membership, no duplicate-letter budget); otherwise `0`
(ABSENT).  Scoring a word against itself yields all `2`, and the row an
accepted `step` writes is exactly this status vector. -/
theorem claim_C1_feedback (hidden guess : List Int)
    (hh : hidden.length = WORD_LENGTH) (hg : guess.length = WORD_LENGTH)
    (_hhc : ∀ c ∈ hidden, 0 ≤ c ∧ c ≤ 25) (hgc : ∀ c ∈ guess, 0 ≤ c ∧ c ≤ 25) :
    (∀ i c, guess.get? i = some c →
      ((score hidden guess).get? i = some 2 ↔ hidden.get? i = some c) ∧
      ((score hidden guess).get? i = some 1 ↔
        ¬ hidden.get? i = some c ∧ c ∈ hidden) ∧
      ((score hidden guess).get? i = some 0 ↔
        ¬ hidden.get? i = some c ∧ c ∉ hidden)) ∧
    score hidden hidden = List.replicate WORD_LENGTH 2 ∧
    (∀ (words : List (List Int)) (s0 : WordleState), guess ∈ words →
      (step words (reset s0 hidden) guess).1.board.get? 0 =
        some (score hidden guess)) := by
  refine ⟨?_, by rw [score_self, hh], ?_⟩
  · intro i c hgi
    rw [score_get? hidden guess i c hgi]
    by_cases h1 : hidden.get? i = some c
    · unfold statusOf
      rw [if_pos h1]
      rw [List.get?_eq_getElem?] at h1
      refine ⟨by simp [h1], by simp [h1], by simp [h1]⟩
    · by_cases h2 : c ∈ hidden
      · unfold statusOf
        rw [if_neg h1, if_pos h2]
        rw [List.get?_eq_getElem?] at h1
        refine ⟨by simp [h1], by simp [h1, h2], by simp [h2]⟩
      · unfold statusOf
        rw [if_neg h1, if_neg h2]
        rw [List.get?_eq_getElem?] at h1
        refine ⟨by simp [h1], by simp [h2], by simp [h1, h2]⟩
  · intro words s0 hmem
    have hok : actionOk guess := by
      refine ⟨hg, fun c hc => ⟨(hgc c hc).1, ?_⟩⟩
      have := (hgc c hc).2
      omega
    have hstep := step_inv words (reset s0 hidden) guess 0
      (reset_inv s0 hidden) (by decide) hok hmem
    rw [hstep.2.1]
    have hlen : 0 < (reset s0 hidden).board.length := by
      simp [reset]
      decide
    rw [List.get?_set_eq_of_lt _ hlen]
    rfl

/-- Witness for C1 at hidden "abase" and guess "aback" (the spec's worked
example, whose status vector is `[2, 2, 2, 0, 0]`). -/
theorem claim_C1_feedback_witness :
    (([0, 1, 0, 18, 4] : List Int).length = WORD_LENGTH ∧
     ([0, 1, 0, 2, 10] : List Int).length = WORD_LENGTH ∧
     (∀ c ∈ ([0, 1, 0, 18, 4] : List Int), 0 ≤ c ∧ c ≤ 25) ∧
     (∀ c ∈ ([0, 1, 0, 2, 10] : List Int), 0 ≤ c ∧ c ≤ 25) ∧
     score [0, 1, 0, 18, 4] [0, 1, 0, 2, 10] = [2, 2, 2, 0, 0]) ∧
    ((∀ i c, ([0, 1, 0, 2, 10] : List Int).get? i = some c →
      ((score [0, 1, 0, 18, 4] [0, 1, 0, 2, 10]).get? i = some 2 ↔
        ([0, 1, 0, 18, 4] : List Int).get? i = some c) ∧
      ((score [0, 1, 0, 18, 4] [0, 1, 0, 2, 10]).get? i = some 1 ↔
        ¬ ([0, 1, 0, 18, 4] : List Int).get? i = some c ∧
          c ∈ ([0, 1, 0, 18, 4] : List Int)) ∧
      ((score [0, 1, 0, 18, 4] [0, 1, 0, 2, 10]).get? i = some 0 ↔
        ¬ ([0, 1, 0, 18, 4] : List Int).get? i = some c ∧
          c ∉ ([0, 1, 0, 18, 4] : List Int))) ∧
     score [0, 1, 0, 18, 4] [0, 1, 0, 18, 4] = List.replicate WORD_LENGTH 2 ∧
     (∀ (words : List (List Int)) (s0 : WordleState),
        [0, 1, 0, 2, 10] ∈ words →
        (step words (reset s0 [0, 1, 0, 18, 4]) [0, 1, 0, 2, 10]).1.board.get? 0
          = some (score [0, 1, 0, 18, 4] [0, 1, 0, 2, 10]))) :=
  ⟨⟨by decide, by decide, by decide, by decide, by decide⟩,
   claim_C1_feedback [0, 1, 0, 18, 4] [0, 1, 0, 2, 10]
     (by decide) (by decide) (by decide) (by decide)⟩

theorem sessionInv_row_len (s : WordleState) (j : Nat) (hInv : SessionInv s j)
    (hj : j < GAME_LENGTH) :
    (s.board.getD ((GAME_LENGTH : Int) - s.guesses_left).toNat []).length
      = WORD_LENGTH := by
  obtain ⟨hj6, hgl, ⟨pre, hb, hpl, hpre⟩, hal, hgs⟩ := hInv
  subst hpl
  have hidx : ((GAME_LENGTH : Int) - s.guesses_left).toNat = pre.length := by
    rw [hgl]; omega
  rw [hidx, List.getD_eq_get?, hb,
    List.get?_append_right (le_refl pre.length),
    show GAME_LENGTH - pre.length = (GAME_LENGTH - pre.length - 1) + 1 by omega,
    List.replicate_succ]
  simp

/-- Claim C3: for every accepted guess, if every status in the just-written
board row is `2` the step returns reward `+1` and terminal; otherwise reward
`0` and non-terminal while `guesses_left` is still positive after the
decrement, else reward `-1` and terminal.  Guessing the hidden word on turn
`k = acts.length + 1` (after `acts` accepted earlier guesses) returns reward
`+1`, terminal, and leaves exactly `k` board rows non-UNKNOWN. -/
theorem claim_C3_outcomes (words : List (List Int)) (s : WordleState)
    (a : List Int) (s0 : WordleState) (hidden : List Int)
    (acts : List (List Int))
    (hok : actionOk a) (hmem : a ∈ words)
    (hrow : (s.board.getD ((GAME_LENGTH : Int) - s.guesses_left).toNat []).length
      = WORD_LENGTH)
    (hacc : ∀ b ∈ acts, actionOk b ∧ b ∈ words)
    (hokh : actionOk hidden) (hmemh : hidden ∈ words)
    (hk : acts.length < GAME_LENGTH) :
    ((score s.hidden_word a).all (fun x => x == 2) = true →
      (step words s a).2 = StepOutcome.ok 1 true) ∧
    (¬ (score s.hidden_word a).all (fun x => x == 2) = true →
      s.guesses_left - 1 > 0 → (step words s a).2 = StepOutcome.ok 0 false) ∧
    (¬ (score s.hidden_word a).all (fun x => x == 2) = true →
      ¬ s.guesses_left - 1 > 0 →
      (step words s a).2 = StepOutcome.ok (-1) true) ∧
    (step words (playSteps words (reset s0 hidden) acts) hidden).2 =
      StepOutcome.ok 1 true ∧
    (step words (playSteps words (reset s0 hidden) acts) hidden).1.board.countP
      RowFilled = acts.length + 1 := by
  have hstep := step_accepted words s a hok hmem hrow
  have hPlay := playSteps_inv words acts (reset s0 hidden) 0
    (reset_inv s0 hidden) (by omega) hacc
  have hInvP : SessionInv (playSteps words (reset s0 hidden) acts) acts.length := by
    simpa using hPlay.1
  have hhw : (playSteps words (reset s0 hidden) acts).hidden_word = hidden := by
    rw [hPlay.2]; rfl
  have hrowP := sessionInv_row_len _ _ hInvP hk
  have hstepP := step_accepted words (playSteps words (reset s0 hidden) acts)
    hidden hokh hmemh hrowP
  have hstepInv := step_inv words (playSteps words (reset s0 hidden) acts)
    hidden acts.length hInvP hk hokh hmemh
  refine ⟨?_, ?_, ?_, ?_, ?_⟩
  · intro h
    rw [hstep]
    simp only [if_pos h]
  · intro h hgl
    rw [hstep]
    rw [if_neg h, if_pos hgl]
  · intro h hgl
    rw [hstep]
    rw [if_neg h, if_neg hgl]
  · rw [hstepP]
    simp only [hhw]
    rw [if_pos (score_self_all2 hidden)]
  · have hcount := boardShape_countP (acts.length + 1) _ hstepInv.2.2.2.2.2.2.2.1
    exact hcount

/-- Witness for C3: with bank `["aback"]`, guessing the hidden word "aback" on
turn 1 returns reward `+1`, terminal, and fills exactly one board row. -/
theorem claim_C3_outcomes_witness :
    (actionOk [0, 1, 0, 2, 10] ∧
     [0, 1, 0, 2, 10] ∈ [[(0 : Int), 1, 0, 2, 10]] ∧
     ((reset ⟨[], 0, [], [], []⟩ [0, 1, 0, 2, 10]).board.getD
        ((GAME_LENGTH : Int) -
          (reset ⟨[], 0, [], [], []⟩ [0, 1, 0, 2, 10]).guesses_left).toNat
        []).length = WORD_LENGTH ∧
     (∀ b ∈ ([] : List (List Int)),
        actionOk b ∧ b ∈ [[(0 : Int), 1, 0, 2, 10]]) ∧
     ([] : List (List Int)).length < GAME_LENGTH) ∧
    (((score (reset ⟨[], 0, [], [], []⟩ [0, 1, 0, 2, 10]).hidden_word
        [0, 1, 0, 2, 10]).all (fun x => x == 2) = true →
      (step [[(0 : Int), 1, 0, 2, 10]] (reset ⟨[], 0, [], [], []⟩ [0, 1, 0, 2, 10])
        [0, 1, 0, 2, 10]).2 = StepOutcome.ok 1 true) ∧
     (¬ (score (reset ⟨[], 0, [], [], []⟩ [0, 1, 0, 2, 10]).hidden_word
        [0, 1, 0, 2, 10]).all (fun x => x == 2) = true →
      (reset ⟨[], 0, [], [], []⟩ [0, 1, 0, 2, 10]).guesses_left - 1 > 0 →
      (step [[(0 : Int), 1, 0, 2, 10]] (reset ⟨[], 0, [], [], []⟩ [0, 1, 0, 2, 10])
        [0, 1, 0, 2, 10]).2 = StepOutcome.ok 0 false) ∧
     (¬ (score (reset ⟨[], 0, [], [], []⟩ [0, 1, 0, 2, 10]).hidden_word
        [0, 1, 0, 2, 10]).all (fun x => x == 2) = true →
      ¬ (reset ⟨[], 0, [], [], []⟩ [0, 1, 0, 2, 10]).guesses_left - 1 > 0 →
      (step [[(0 : Int), 1, 0, 2, 10]] (reset ⟨[], 0, [], [], []⟩ [0, 1, 0, 2, 10])
        [0, 1, 0, 2, 10]).2 = StepOutcome.ok (-1) true) ∧
     (step [[(0 : Int), 1, 0, 2, 10]]
        (playSteps [[(0 : Int), 1, 0, 2, 10]]
          (reset ⟨[], 0, [], [], []⟩ [0, 1, 0, 2, 10]) [])
        [0, 1, 0, 2, 10]).2 = StepOutcome.ok 1 true ∧
     (step [[(0 : Int), 1, 0, 2, 10]]
        (playSteps [[(0 : Int), 1, 0, 2, 10]]
          (reset ⟨[], 0, [], [], []⟩ [0, 1, 0, 2, 10]) [])
        [0, 1, 0, 2, 10]).1.board.countP RowFilled =
       ([] : List (List Int)).length + 1) :=
  ⟨⟨by decide, by decide, by decide, by decide, by decide⟩,
   claim_C3_outcomes [[(0 : Int), 1, 0, 2, 10]]
     (reset ⟨[], 0, [], [], []⟩ [0, 1, 0, 2, 10]) [0, 1, 0, 2, 10]
     ⟨[], 0, [], [], []⟩ [0, 1, 0, 2, 10] []
     (by decide) (by decide) (by decide) (by decide) (by decide) (by decide)
     (by decide)⟩

/-- Claim C4: after any accepted guess `a` (made in any reachable session,
i.e. regardless of the alphabet tracker's prior values), the alphabet entry of
each letter occurring in `a` equals the status computed for the rightmost
occurrence of that letter in `a`; since the session before the guess is
arbitrary, a later accepted guess containing the letter overwrites the entry
again, even regressing from a more favourable status. -/
theorem claim_C4_alphabet (words : List (List Int)) (s0 : WordleState)
    (hidden : List Int) (acts : List (List Int)) (a : List Int)
    (hacc : ∀ b ∈ acts, actionOk b ∧ b ∈ words)
    (hlen : acts.length < GAME_LENGTH)
    (hok : actionOk a) (hmem : a ∈ words) :
    ∀ c ∈ a,
      (step words (playSteps words (reset s0 hidden) acts) a).1.alphabet.get?
        c.toNat = some (statusOf hidden (lastIdxOf a c) c) := by
  intro c hc
  have hInvP : SessionInv (playSteps words (reset s0 hidden) acts) acts.length := by
    simpa using (playSteps_inv words acts (reset s0 hidden) 0
      (reset_inv s0 hidden) (by omega) hacc).1
  have hhw : (playSteps words (reset s0 hidden) acts).hidden_word = hidden := by
    rw [(playSteps_inv words acts (reset s0 hidden) 0
      (reset_inv s0 hidden) (by omega) hacc).2]
    rfl
  have hal : (playSteps words (reset s0 hidden) acts).alphabet.length = 26 :=
    hInvP.2.2.2.1
  have hrowP := sessionInv_row_len _ _ hInvP hlen
  have hstepP := step_accepted words (playSteps words (reset s0 hidden) acts) a
    hok hmem hrowP
  rw [hstepP]
  dsimp only
  rw [hhw]
  have hfilter : a.enum.filter (fun p => decide (p.2.toNat = c.toNat)) =
      a.enum.filter (fun p => decide (p.2 = c)) := by
    apply List.filter_congr
    intro p hp
    have hpa : p.2 ∈ a := List.get?_mem (List.mem_enum_iff_get?.mp hp)
    have h1 := hok.2 p.2 hpa
    have h2 := hok.2 c hc
    rw [decide_eq_decide]
    omega
  obtain ⟨n, hn⟩ := List.mem_iff_get?.mp hc
  have hmemf : (n, c) ∈ a.enum.filter (fun p => decide (p.2 = c)) := by
    rw [List.mem_filter]
    exact ⟨List.mem_enum_iff_get?.mpr (by simpa using hn), by simp⟩
  have hne : a.enum.filter (fun p => decide (p.2 = c)) ≠ [] :=
    List.ne_nil_of_mem hmemf
  obtain ⟨q, hq⟩ := Option.isSome_iff_exists.mp (List.getLast?_isSome.mpr hne)
  have hqmem := getLastQ_mem _ _ hq
  have hq2 : q.2 = c := by simpa using (List.mem_filter.mp hqmem).2
  have hq1 : lastIdxOf a c = q.1 := by
    rw [lastIdxOf, hq]
    rfl
  rw [alphaFold_get?, hfilter, hq]
  dsimp only
  have hlt : c.toNat < (playSteps words (reset s0 hidden) acts).alphabet.length := by
    rw [hal]
    have h2 := hok.2 c hc
    omega
  rw [if_pos hlt, hq1, hq2]

/-- Witness for C4: guessing "aback" (letter `a` occurs at positions 0 and 2)
against hidden "aback" on the first turn; in particular the entry for `a`
comes from its rightmost occurrence, position 2. -/
theorem claim_C4_alphabet_witness :
    ((∀ b ∈ ([] : List (List Int)),
        actionOk b ∧ b ∈ [[(0 : Int), 1, 0, 2, 10]]) ∧
     ([] : List (List Int)).length < GAME_LENGTH ∧
     actionOk [0, 1, 0, 2, 10] ∧
     [0, 1, 0, 2, 10] ∈ [[(0 : Int), 1, 0, 2, 10]] ∧
     lastIdxOf [0, 1, 0, 2, 10] 0 = 2) ∧
    (∀ c ∈ ([0, 1, 0, 2, 10] : List Int),
      (step [[(0 : Int), 1, 0, 2, 10]]
        (playSteps [[(0 : Int), 1, 0, 2, 10]]
          (reset ⟨[], 0, [], [], []⟩ [0, 1, 0, 2, 10]) [])
        [0, 1, 0, 2, 10]).1.alphabet.get? c.toNat =
          some (statusOf [0, 1, 0, 2, 10] (lastIdxOf [0, 1, 0, 2, 10] c) c)) :=
  ⟨⟨by decide, by decide, by decide, by decide, by decide⟩,
   claim_C4_alphabet [[(0 : Int), 1, 0, 2, 10]] ⟨[], 0, [], [], []⟩
     [0, 1, 0, 2, 10] [] [0, 1, 0, 2, 10]
     (by decide) (by decide) (by decide) (by decide)⟩

/-- Claim C6: in every state reachable by `reset` followed by accepted steps,
the `j`-th accepted guess writes its statuses only into board row
`GAME_LENGTH - guesses_left = j` (rows written by earlier turns are never
rewritten), and a board row is non-UNKNOWN exactly when a guess has been made
at that turn. -/
theorem claim_C6_board_rows (words : List (List Int)) (s0 : WordleState)
    (hidden : List Int) (acts : List (List Int))
    (hacc : ∀ a ∈ acts, actionOk a ∧ a ∈ words)
    (hlen : acts.length ≤ GAME_LENGTH) :
    (∀ j, j < acts.length →
      ((GAME_LENGTH : Int) -
          (playSteps words (reset s0 hidden) (acts.take j)).guesses_left).toNat
        = j ∧
      (playSteps words (reset s0 hidden) (acts.take (j + 1))).board =
        (playSteps words (reset s0 hidden) (acts.take j)).board.set j
          (score hidden (acts.getD j [])) ∧
      (∀ i, i ≠ j →
        (playSteps words (reset s0 hidden) (acts.take (j + 1))).board.get? i =
          (playSteps words (reset s0 hidden) (acts.take j)).board.get? i)) ∧
    (∀ i r, (playSteps words (reset s0 hidden) acts).board.get? i = some r →
      (RowFilled r = true ↔ i < acts.length)) := by
  constructor
  · intro j hj
    have htl : (acts.take j).length = j := by
      rw [List.length_take]; omega
    have hPlayj := playSteps_inv words (acts.take j) (reset s0 hidden) 0
      (reset_inv s0 hidden) (by omega)
      (fun b hb => hacc b (List.take_subset j acts hb))
    have hInvj : SessionInv (playSteps words (reset s0 hidden) (acts.take j)) j := by
      rw [htl] at hPlayj
      simpa using hPlayj.1
    have hhwj : (playSteps words (reset s0 hidden) (acts.take j)).hidden_word
        = hidden := by
      rw [hPlayj.2]; rfl
    obtain ⟨aj, haj⟩ : ∃ aj, acts.get? j = some aj :=
      ⟨acts.get ⟨j, hj⟩, List.get?_eq_get hj⟩
    have hgd : acts.getD j [] = aj := by
      rw [List.getD_eq_get?, haj]; rfl
    have haj_mem : aj ∈ acts := List.get?_mem haj
    have hajacc := hacc aj haj_mem
    have hstepj := step_inv words (playSteps words (reset s0 hidden) (acts.take j))
      aj j hInvj (by omega) hajacc.1 hajacc.2
    have htake : acts.take (j + 1) = acts.take j ++ [aj] := by
      rw [List.take_succ, ← List.get?_eq_getElem?, haj]
      rfl
    have hplay : playSteps words (reset s0 hidden) (acts.take (j + 1)) =
        (step words (playSteps words (reset s0 hidden) (acts.take j)) aj).1 := by
      rw [htake, playSteps, List.foldl_append]
      rfl
    refine ⟨hstepj.1, ?_, ?_⟩
    · rw [hplay, hstepj.2.1, hhwj, hgd]
    · intro i hi
      rw [hplay, hstepj.2.1, List.get?_set_ne _ _ (Ne.symm hi)]
  · have hPlayF := playSteps_inv words acts (reset s0 hidden) 0
      (reset_inv s0 hidden) (by omega) hacc
    have hInvF : SessionInv (playSteps words (reset s0 hidden) acts)
        acts.length := by simpa using hPlayF.1
    obtain ⟨pre, hb, hpl, hpre⟩ := hInvF.2.2.1
    intro i r hget
    rw [hb] at hget
    by_cases hi : i < pre.length
    · rw [List.get?_append hi] at hget
      have hrmem : r ∈ pre := List.get?_mem hget
      have := rowFilled_of_scored r (hpre r hrmem).1 (hpre r hrmem).2
      simp [this]
      omega
    · rw [List.get?_append_right (by omega)] at hget
      have hrmem := List.get?_mem hget
      have hru : r = List.replicate WORD_LENGTH (-1) :=
        List.eq_of_mem_replicate hrmem
      subst hru
      rw [rowFilled_unknown]
      simp
      omega

/-- Witness for C6 with bank `["aback"]` and the single accepted guess "aback". -/
theorem claim_C6_board_rows_witness :
    ((∀ a ∈ ([[(0 : Int), 1, 0, 2, 10]] : List (List Int)),
        actionOk a ∧ a ∈ [[(0 : Int), 1, 0, 2, 10]]) ∧
     ([[(0 : Int), 1, 0, 2, 10]] : List (List Int)).length ≤ GAME_LENGTH) ∧
    ((∀ j, j < ([[(0 : Int), 1, 0, 2, 10]] : List (List Int)).length →
      ((GAME_LENGTH : Int) -
          (playSteps [[(0 : Int), 1, 0, 2, 10]]
            (reset ⟨[], 0, [], [], []⟩ [0, 1, 0, 2, 10])
            (([[(0 : Int), 1, 0, 2, 10]] : List (List Int)).take j)).guesses_left).toNat
        = j ∧
      (playSteps [[(0 : Int), 1, 0, 2, 10]]
          (reset ⟨[], 0, [], [], []⟩ [0, 1, 0, 2, 10])
          (([[(0 : Int), 1, 0, 2, 10]] : List (List Int)).take (j + 1))).board =
        (playSteps [[(0 : Int), 1, 0, 2, 10]]
          (reset ⟨[], 0, [], [], []⟩ [0, 1, 0, 2, 10])
          (([[(0 : Int), 1, 0, 2, 10]] : List (List Int)).take j)).board.set j
          (score [0, 1, 0, 2, 10]
            (([[(0 : Int), 1, 0, 2, 10]] : List (List Int)).getD j [])) ∧
      (∀ i, i ≠ j →
        (playSteps [[(0 : Int), 1, 0, 2, 10]]
          (reset ⟨[], 0, [], [], []⟩ [0, 1, 0, 2, 10])
          (([[(0 : Int), 1, 0, 2, 10]] : List (List Int)).take (j + 1))).board.get? i =
        (playSteps [[(0 : Int), 1, 0, 2, 10]]
          (reset ⟨[], 0, [], [], []⟩ [0, 1, 0, 2, 10])
          (([[(0 : Int), 1, 0, 2, 10]] : List (List Int)).take j)).board.get? i)) ∧
     (∀ i r, (playSteps [[(0 : Int), 1, 0, 2, 10]]
          (reset ⟨[], 0, [], [], []⟩ [0, 1, 0, 2, 10])
          [[(0 : Int), 1, 0, 2, 10]]).board.get? i = some r →
        (RowFilled r = true ↔
          i < ([[(0 : Int), 1, 0, 2, 10]] : List (List Int)).length))) :=
  ⟨⟨by decide, by decide⟩,
   claim_C6_board_rows [[(0 : Int), 1, 0, 2, 10]] ⟨[], 0, [], [], []⟩
     [0, 1, 0, 2, 10] [[(0 : Int), 1, 0, 2, 10]] (by decide) (by decide)⟩

/-- Claim C7: the word codec is a bijection on valid inputs: encoding the
decoded string of a valid word recovers the word, and decoding the encoding of
a five-letter lowercase string recovers the string. -/
theorem claim_C7_codec (w : List Int) (s : String)
    (hw : w.length = WORD_LENGTH) (hwc : ∀ c ∈ w, 0 ≤ c ∧ c ≤ 25)
    (hs : s.length = WORD_LENGTH) (hsc : ∀ c ∈ s.data, 'a' ≤ c ∧ c ≤ 'z') :
    strToEncode [encodeToStr w] = some [w] ∧
    (∃ e, strToEncode [s] = some [e] ∧ encodeToStr e = s) := by
  constructor
  · have hchars : ∀ c ∈ (encodeToStr w).data, pySpace c = false := by
      intro c hc
      rcases List.mem_map.mp hc with ⟨enc, henc, hfc⟩
      rw [← hfc]
      exact (char_roundtrip enc (hwc enc henc).1 (hwc enc henc).2).1
    have hstrip : pyStrip (encodeToStr w) = encodeToStr w :=
      pyStrip_id _ hchars
    have hlen1 : (pyStrip (encodeToStr w)).length = WORD_LENGTH := by
      rw [hstrip]
      show (w.map (fun enc => Char.ofNat (97 + enc).toNat)).length = WORD_LENGTH
      rw [List.length_map, hw]
    have hmap : ((pyStrip (encodeToStr w)).data).map
        (fun c => (c.toNat : Int) - 97) = w := by
      rw [hstrip]
      show (w.map (fun enc => Char.ofNat (97 + enc).toNat)).map
        (fun c => (c.toNat : Int) - 97) = w
      rw [List.map_map]
      have hpt : ∀ x ∈ w, ((fun c : Char => (c.toNat : Int) - 97) ∘
          (fun enc : Int => Char.ofNat (97 + enc).toNat)) x = x := by
        intro x hx
        exact (char_roundtrip x (hwc x hx).1 (hwc x hx).2).2
      rw [List.map_congr_left hpt, List.map_id']
    rw [strToEncode, List.mapM_cons, List.mapM_nil]
    rw [if_pos hlen1, hmap]
    rfl
  · have hchars : ∀ c ∈ s.data, pySpace c = false := fun c hc =>
      char_lower_notSpace c (hsc c hc).1
    have hstrip : pyStrip s = s := pyStrip_id s hchars
    have hlen1 : (pyStrip s).length = WORD_LENGTH := by rw [hstrip, hs]
    refine ⟨s.data.map (fun c => (c.toNat : Int) - 97), ?_, ?_⟩
    · rw [strToEncode, List.mapM_cons, List.mapM_nil]
      rw [if_pos hlen1, hstrip]
      rfl
    · rw [encodeToStr, List.map_map]
      have hpt : ∀ c ∈ s.data, ((fun enc : Int => Char.ofNat (97 + enc).toNat) ∘
          (fun c : Char => (c.toNat : Int) - 97)) c = c := by
        intro c hc
        exact char_lower_decode c (hsc c hc).1
      rw [List.map_congr_left hpt, List.map_id']

/-- Witness for C7 at the word `[0, 1, 0, 2, 10]` and the string "aback". -/
theorem claim_C7_codec_witness :
    (([0, 1, 0, 2, 10] : List Int).length = WORD_LENGTH ∧
     (∀ c ∈ ([0, 1, 0, 2, 10] : List Int), 0 ≤ c ∧ c ≤ 25) ∧
     "aback".length = WORD_LENGTH ∧
     (∀ c ∈ "aback".data, 'a' ≤ c ∧ c ≤ 'z')) ∧
    (strToEncode [encodeToStr [0, 1, 0, 2, 10]] = some [[0, 1, 0, 2, 10]] ∧
     (∃ e, strToEncode ["aback"] = some [e] ∧ encodeToStr e = "aback")) :=
  ⟨⟨by decide, by decide, by decide, by decide⟩,
   claim_C7_codec [0, 1, 0, 2, 10] "aback"
     (by decide) (by decide) (by decide) (by decide)⟩
